import Mathlib

/-!
# Verification of the `coco` Treiber stack (`src/stack.rs`)

We give a shallow embedding of the lock-free Treiber stack from
`src/stack.rs`.  Heap nodes live in an arena (`List (Node T)`); a pointer is
an `Option Nat` (`none` = null, `some i` = address `i` in the arena).
Addresses are never reused: allocation always appends at the end, and
`defer_free`d nodes are only recorded in a ghost `freed` list, which matches
epoch-based reclamation (the memory of a retired node stays valid and is
never handed out again while any operation might still reference it).

Two models are developed:

* a sequential model (`Coco.Stack`) in which every operation runs to
  completion without interference, so each `compare_and_swap` succeeds on the
  first attempt — this is the single-threaded semantics of the code;
* a concurrent model (`Coco.Conc`) in which every thread is a small state
  machine whose states are the program points of `push`/`pop` between their
  atomic accesses (load of `head`, store to `next`, weak CAS with possible
  spurious failure), interleaved arbitrarily.
-/

set_option autoImplicit false

namespace Coco

universe u

/-- A single node in a stack: the payload and the next pointer
(`struct Node<T> { value: T, next: Atomic<Node<T>> }`). -/
structure Node (T : Type u) where
  value : T
  next : Option Nat
deriving Repr, DecidableEq

/-- The sequential state of a `Stack<T>`: the arena of all nodes ever
allocated, the atomic `head` pointer, and the ghost list of addresses that
were handed to `defer_free` (retired, memory still valid, never reused). -/
structure Stack (T : Type u) where
  mem : List (Node T)
  head : Option Nat
  freed : List Nat
deriving Repr, DecidableEq

namespace Stack

variable {T : Type u}

/-- `Stack::new`: `head` is null, nothing allocated. -/
def new : Stack T := ⟨[], none, []⟩

/-- `Stack::push`, single-threaded: allocate `Owned::new(Node { value,
next: null })` at the fresh address `mem.length`, load `head`, store it into
the node's `next` (Relaxed), and the weak CAS installs the node (no
interference, so the retry loop ends on the first successful attempt). -/
def push (s : Stack T) (v : T) : Stack T :=
  let p := s.mem.length
  let mem1 := s.mem ++ [⟨v, none⟩]
  let h := s.head
  let mem2 := mem1.set p ⟨v, h⟩
  { mem := mem2, head := some p, freed := s.freed }

/-- `Stack::pop`, single-threaded: load `head`; if null return `None`;
otherwise read the head node's `next`, CAS `head` to it (succeeds, no
interference), `defer_free` the detached node and move its payload out.
The inner `none` branch is unreachable for states built by the API
(see `reach_head_valid`). -/
def pop (s : Stack T) : Option T × Stack T :=
  match s.head with
  | none => (none, s)
  | some p =>
    match s.mem[p]? with
    | none => (none, s)
    | some nd =>
      (some nd.value, { mem := s.mem, head := nd.next, freed := p :: s.freed })

/-- `Stack::is_empty`: load `head` (Acquire) and test it for null. -/
def is_empty (s : Stack T) : Bool := s.head.isNone

end Stack

variable {T : Type u}

/-- The list of payloads reachable from pointer `p` by following `next`
fields, cut off by `fuel` (the arena is finite, so `mem.length` fuel is
always enough for an acyclic chain). -/
def listFrom (mem : List (Node T)) : Nat → Option Nat → List T
  | _, none => []
  | 0, some _ => []
  | fuel + 1, some p =>
    match mem[p]? with
    | none => []
    | some nd => nd.value :: listFrom mem fuel nd.next

/-- The abstract contents of the stack: payloads from `head` in order. -/
def Stack.toList {T : Type u} (s : Stack T) : List T :=
  listFrom s.mem s.mem.length s.head

/-- `Chain mem p c` says that following `next` pointers from `p` visits
exactly the addresses in `c` and ends at null. -/
inductive Chain {T : Type u} (mem : List (Node T)) : Option Nat → List Nat → Prop
  | nil : Chain mem none []
  | cons {p : Nat} {nd : Node T} {ps : List Nat} :
      mem[p]? = some nd → Chain mem nd.next ps → Chain mem (some p) (p :: ps)

/-- Payload at an address, as an `Option`. -/
def valAt {T : Type u} (mem : List (Node T)) (i : Nat) : Option T :=
  (mem[i]?).map Node.value

/-- The payloads of a chain of addresses. -/
def chainVals {T : Type u} (mem : List (Node T)) (c : List Nat) : List T :=
  c.filterMap (valAt mem)

theorem chain_lt {mem : List (Node T)} {h : Option Nat} {c : List Nat}
    (hc : Chain mem h c) : ∀ i ∈ c, i < mem.length := by
  induction hc with
  | nil => intro i hi; simp at hi
  | cons hget _ ih =>
    intro i hi
    rcases List.mem_cons.mp hi with rfl | hi
    · exact List.getElem?_eq_some_iff.mp hget |>.1
    · exact ih i hi

theorem chain_none {mem : List (Node T)} {c : List Nat}
    (hc : Chain mem none c) : c = [] := by
  cases hc; rfl

theorem chain_det {mem : List (Node T)} {h : Option Nat} {c₁ c₂ : List Nat}
    (h₁ : Chain mem h c₁) (h₂ : Chain mem h c₂) : c₁ = c₂ := by
  induction h₁ generalizing c₂ with
  | nil => exact (chain_none h₂).symm
  | cons hget _ ih =>
    cases h₂ with
    | cons hget' htail' =>
      rename_i nd _ _ nd' _
      have : nd = nd' := by
        have := hget.symm.trans hget'
        exact Option.some_injective _ this
      subst this
      exact congrArg _ (ih htail')

/-- Any address in a chain roots a suffix of the chain. -/
theorem chain_mem_suffix {mem : List (Node T)} {h : Option Nat} {c : List Nat}
    (hc : Chain mem h c) {p : Nat} (hp : p ∈ c) :
    ∃ l, Chain mem (some p) (p :: l) ∧ (p :: l) <:+ c := by
  induction hc with
  | nil => simp at hp
  | cons hget htail ih =>
    rename_i q nd ps
    rcases List.mem_cons.mp hp with rfl | hp
    · exact ⟨ps, Chain.cons hget htail, List.suffix_refl _⟩
    · obtain ⟨l, hch, hsuf⟩ := ih hp
      exact ⟨l, hch, hsuf.trans (List.suffix_cons q ps)⟩

theorem chain_nodup {mem : List (Node T)} {h : Option Nat} {c : List Nat}
    (hc : Chain mem h c) : c.Nodup := by
  induction hc with
  | nil => exact List.nodup_nil
  | cons hget htail ih =>
    rename_i p nd ps
    refine List.nodup_cons.mpr ⟨?_, ih⟩
    intro hmem
    obtain ⟨l, hch, hsuf⟩ := chain_mem_suffix htail hmem
    have := chain_det hch (Chain.cons hget htail)
    have hlen : (p :: l).length ≤ ps.length := hsuf.length_le
    rw [this] at hlen
    simp at hlen

theorem chain_length_le {mem : List (Node T)} {h : Option Nat} {c : List Nat}
    (hc : Chain mem h c) : c.length ≤ mem.length := by
  classical
  have hnd := chain_nodup hc
  have hsub : c.toFinset ⊆ Finset.range mem.length := by
    intro i hi
    simp only [List.mem_toFinset] at hi
    exact Finset.mem_range.mpr (chain_lt hc i hi)
  have := Finset.card_le_card hsub
  rwa [List.toFinset_card_of_nodup hnd, Finset.card_range] at this

/-- With enough fuel, `listFrom` computes exactly the chain's payloads. -/
theorem listFrom_chain {mem : List (Node T)} {h : Option Nat} {c : List Nat}
    (hc : Chain mem h c) :
    ∀ fuel, c.length ≤ fuel → listFrom mem fuel h = chainVals mem c := by
  induction hc with
  | nil => intro fuel _; cases fuel <;> simp [listFrom, chainVals]
  | cons hget htail ih =>
    rename_i p nd ps
    intro fuel hfuel
    cases fuel with
    | zero => simp at hfuel
    | succ fuel =>
      simp only [listFrom, hget, chainVals, List.filterMap_cons, valAt, hget,
        Option.map_some]
      rw [ih fuel (by simpa using hfuel)]
      rfl

/-- Chains are stable under extending the arena. -/
theorem chain_append {mem : List (Node T)} {h : Option Nat} {c : List Nat}
    (hc : Chain mem h c) (l : List (Node T)) : Chain (mem ++ l) h c := by
  induction hc with
  | nil => exact Chain.nil
  | cons hget htail ih =>
    refine Chain.cons ?_ ih
    rw [List.getElem?_append_left (List.getElem?_eq_some_iff.mp hget).1]
    exact hget

/-- Chains are stable under overwriting an address off the chain. -/
theorem chain_set {mem : List (Node T)} {h : Option Nat} {c : List Nat}
    (hc : Chain mem h c) {p : Nat} (hp : p ∉ c) (nd : Node T) :
    Chain (mem.set p nd) h c := by
  induction hc with
  | nil => exact Chain.nil
  | cons hget htail ih =>
    rename_i q nd' ps
    have hq : q ∈ (q :: ps) := List.mem_cons_self _ _
    have hpq : p ≠ q := fun he => hp (he ▸ hq)
    refine Chain.cons ?_ (ih fun hm => hp (List.mem_cons_of_mem _ hm))
    rw [List.getElem?_set_ne hpq]
    exact hget

theorem chainVals_append {mem : List (Node T)} {c : List Nat}
    (hlt : ∀ i ∈ c, i < mem.length) (l : List (Node T)) :
    chainVals (mem ++ l) c = chainVals mem c := by
  unfold chainVals
  refine List.filterMap_congr ?_
  intro i hi
  unfold valAt
  rw [List.getElem?_append_left (hlt i hi)]

theorem chainVals_set_value {mem : List (Node T)} {p : Nat} {nd : Node T}
    (hget : mem[p]? = some nd) (h : Option Nat) (c : List Nat) :
    chainVals (mem.set p ⟨nd.value, h⟩) c = chainVals mem c := by
  unfold chainVals
  refine List.filterMap_congr ?_
  intro i _
  unfold valAt
  rcases eq_or_ne p i with rfl | hne
  · rw [List.getElem?_set_self (List.getElem?_eq_some_iff.mp hget).1, hget]
    rfl
  · rw [List.getElem?_set_ne hne]

/-- Setting an index just past the end of a one-element extension. -/
theorem set_append_singleton (l : List (Node T)) (a b : Node T) :
    (l ++ [a]).set l.length b = l ++ [b] := by
  induction l with
  | nil => rfl
  | cons x xs ih => simp [List.set, ih]

/-- The sequential invariant: `head` roots a finite chain. -/
def SeqInv (s : Stack T) : Prop := ∃ c, Chain s.mem s.head c

/-- `push` in closed form: the arena gains one node `⟨v, old head⟩` at the
fresh address, and `head` moves to it. -/
theorem push_eq (s : Stack T) (v : T) :
    s.push v = ⟨s.mem ++ [⟨v, s.head⟩], some s.mem.length, s.freed⟩ := by
  unfold Stack.push
  simp [set_append_singleton]

theorem push_chain {s : Stack T} {c : List Nat} (hc : Chain s.mem s.head c)
    (v : T) : Chain (s.push v).mem (s.push v).head (s.mem.length :: c) := by
  rw [push_eq]
  have hget : (s.mem ++ [⟨v, s.head⟩])[s.mem.length]? =
      some (⟨v, s.head⟩ : Node T) := by simp
  exact Chain.cons hget (chain_append hc _)

theorem push_seqInv {s : Stack T} (hs : SeqInv s) (v : T) : SeqInv (s.push v) :=
  let ⟨c, hc⟩ := hs
  ⟨s.mem.length :: c, push_chain hc v⟩

theorem toList_chain {s : Stack T} {c : List Nat} (hc : Chain s.mem s.head c) :
    s.toList = chainVals s.mem c :=
  listFrom_chain hc s.mem.length (chain_length_le hc)

theorem push_toList {s : Stack T} (hs : SeqInv s) (v : T) :
    (s.push v).toList = v :: s.toList := by
  obtain ⟨c, hc⟩ := hs
  have hc' := push_chain hc v
  rw [toList_chain hc', toList_chain hc, push_eq]
  simp only [chainVals, List.filterMap_cons, valAt]
  have hlt := chain_lt hc
  rw [List.getElem?_append_right (le_refl _)]
  simp only [Nat.sub_self, List.getElem?_cons_zero, Option.map_some]
  rw [show (List.filterMap (valAt (s.mem ++ [⟨v, s.head⟩])) c) =
      chainVals (s.mem ++ [⟨v, s.head⟩]) c from rfl, chainVals_append hlt]
  rfl

/-- `pop` in closed form on a non-empty chain. -/
theorem pop_cons {s : Stack T} {p : Nat} {nd : Node T}
    (hh : s.head = some p) (hget : s.mem[p]? = some nd) :
    s.pop = (some nd.value, ⟨s.mem, nd.next, p :: s.freed⟩) := by
  unfold Stack.pop
  rw [hh]
  simp [hget]

theorem pop_none_of_empty {s : Stack T} (hh : s.head = none) :
    s.pop = (none, s) := by
  unfold Stack.pop; rw [hh]

theorem listFrom_none (mem : List (Node T)) (fuel : Nat) :
    listFrom mem fuel none = [] := by
  cases fuel <;> rfl

theorem toList_of_head_none {s : Stack T} (hh : s.head = none) :
    s.toList = [] := by
  unfold Stack.toList
  rw [hh, listFrom_none]

theorem pop_toList {s : Stack T} (hs : SeqInv s) :
    (s.pop).1 = s.toList.head? ∧ (s.pop).2.toList = s.toList.tail ∧
      SeqInv (s.pop).2 := by
  obtain ⟨c, hc⟩ := hs
  cases hh : s.head with
  | none =>
    rw [pop_none_of_empty hh, toList_of_head_none hh]
    refine ⟨rfl, rfl, ⟨[], ?_⟩⟩
    show Chain s.mem s.head []
    rw [hh]
    exact Chain.nil
  | some p =>
    rw [hh] at hc
    cases hc with
    | cons hget htail =>
      rename_i nd ps
      rw [pop_cons hh hget]
      have hc' : Chain s.mem s.head (p :: ps) := by
        rw [hh]; exact Chain.cons hget htail
      rw [toList_chain hc']
      have hs' : (⟨s.mem, nd.next, p :: s.freed⟩ : Stack T).toList =
          chainVals s.mem ps := toList_chain htail
      rw [hs']
      refine ⟨?_, ?_, ⟨ps, htail⟩⟩
      · simp [chainVals, valAt, hget]
      · simp [chainVals, valAt, hget]

theorem pop_seqInv {s : Stack T} (hs : SeqInv s) : SeqInv (s.pop).2 :=
  (pop_toList hs).2.2

/-- States reachable through the public single-threaded interface. -/
inductive Reach : Stack T → Prop
  | new : Reach Stack.new
  | push {s : Stack T} (v : T) : Reach s → Reach (s.push v)
  | pop {s : Stack T} : Reach s → Reach (s.pop).2

theorem reach_seqInv {s : Stack T} (hr : Reach s) : SeqInv s := by
  induction hr with
  | new => exact ⟨[], Chain.nil⟩
  | push v _ ih => exact push_seqInv ih v
  | pop _ ih => exact pop_seqInv ih

/-- A reachable state's `head` is a valid address when non-null. -/
theorem reach_head_valid {s : Stack T} (hr : Reach s) {p : Nat}
    (hh : s.head = some p) : ∃ nd, s.mem[p]? = some nd := by
  obtain ⟨c, hc⟩ := reach_seqInv hr
  rw [hh] at hc
  cases hc with
  | cons hget _ => exact ⟨_, hget⟩

/-- Push a whole list of values, left to right. -/
def pushAll (s : Stack T) (vs : List T) : Stack T := vs.foldl Stack.push s

/-- The results of `k` successive `pop` calls. -/
def popStream : Stack T → Nat → List (Option T)
  | _, 0 => []
  | s, k + 1 =>
    let pr := s.pop
    pr.1 :: popStream pr.2 k

theorem pushAll_seqInv {s : Stack T} (hs : SeqInv s) (vs : List T) :
    SeqInv (pushAll s vs) := by
  induction vs generalizing s with
  | nil => exact hs
  | cons v vs ih => exact ih (push_seqInv hs v)

theorem pushAll_toList {s : Stack T} (hs : SeqInv s) (vs : List T) :
    (pushAll s vs).toList = vs.reverse ++ s.toList := by
  induction vs generalizing s with
  | nil => simp [pushAll]
  | cons v vs ih =>
    show (pushAll (s.push v) vs).toList = _
    rw [ih (push_seqInv hs v), push_toList hs]
    simp

theorem popStream_spec {s : Stack T} (hs : SeqInv s) {l : List T}
    (hl : s.toList = l) :
    popStream s (l.length + 1) = l.map some ++ [none] := by
  induction l generalizing s with
  | nil =>
    obtain ⟨h1, _, _⟩ := pop_toList hs
    rw [hl] at h1
    simp only [popStream, List.length_nil, List.map_nil, List.nil_append]
    simp [h1]
  | cons v l ih =>
    obtain ⟨h1, h2, h3⟩ := pop_toList hs
    rw [hl] at h1 h2
    show s.pop.1 :: popStream s.pop.2 (l.length + 1) = _
    rw [h1, ih h3 (by simpa using h2)]
    rfl

theorem new_toList : (Stack.new : Stack T).toList = [] := rfl

theorem new_seqInv (T : Type u) : SeqInv (Stack.new : Stack T) := ⟨[], Chain.nil⟩

/-- A single-threaded operation on the stack. -/
inductive Op (T : Type u)
  | push (v : T)
  | pop

/-- Running a list of operations, collecting each `pop`'s result. -/
def run : Stack T → List (Op T) → Stack T × List (Option T)
  | s, [] => (s, [])
  | s, .push v :: ops => run (s.push v) ops
  | s, .pop :: ops =>
    let pr := s.pop
    let rest := run pr.2 ops
    (rest.1, pr.1 :: rest.2)

/-- How many values an operation list pushes. -/
def pushCount : List (Op T) → Nat
  | [] => 0
  | .push _ :: ops => pushCount ops + 1
  | .pop :: ops => pushCount ops

/-- How many pops in a result list returned a value. -/
def someCount (rs : List (Option T)) : Nat := (rs.filter Option.isSome).length

theorem someCount_cons_none (rs : List (Option T)) :
    someCount (none :: rs) = someCount rs := by
  simp [someCount]

theorem someCount_cons_some (v : T) (rs : List (Option T)) :
    someCount (some v :: rs) = someCount rs + 1 := by
  simp [someCount, List.filter]

theorem run_push_cons (s : Stack T) (v : T) (ops : List (Op T)) :
    run s (.push v :: ops) = run (s.push v) ops := rfl

theorem run_pop_cons (s : Stack T) (ops : List (Op T)) :
    run s (.pop :: ops) =
      ((run s.pop.2 ops).1, s.pop.1 :: (run s.pop.2 ops).2) := rfl

theorem run_spec {s : Stack T} (hs : SeqInv s) (ops : List (Op T)) :
    SeqInv (run s ops).1 ∧
      pushCount ops + s.toList.length =
        someCount (run s ops).2 + (run s ops).1.toList.length := by
  induction ops generalizing s with
  | nil => exact ⟨hs, by simp [run, someCount, pushCount]⟩
  | cons op ops ih =>
    cases op with
    | push v =>
      obtain ⟨ha, hb⟩ := ih (push_seqInv hs v)
      rw [push_toList hs] at hb
      rw [run_push_cons]
      refine ⟨ha, ?_⟩
      show pushCount ops + 1 + _ = _
      simp only [List.length_cons] at hb
      omega
    | pop =>
      obtain ⟨h1, h2, h3⟩ := pop_toList hs
      obtain ⟨ha, hb⟩ := ih h3
      rw [run_pop_cons]
      refine ⟨ha, ?_⟩
      show pushCount ops + _ =
        someCount ((s.pop).1 :: (run (s.pop).2 ops).2) + _
      cases hl : s.toList with
      | nil =>
        rw [hl] at h1 h2
        simp only [List.head?_nil] at h1
        rw [h1, someCount_cons_none]
        rw [h2] at hb
        simpa using hb
      | cons v l =>
        rw [hl] at h1 h2
        simp only [List.head?_cons] at h1
        rw [h1, someCount_cons_some]
        rw [h2] at hb
        simp only [List.tail_cons] at hb
        simp only [List.length_cons]
        omega

/-- The teardown loop of `<Stack as Drop>::drop`: walk `next` pointers from
`head` (within the `unprotected` scope), freeing each visited node; `fuel`
bounds the walk, `none` means the bound was hit before reaching null (or an
invalid address was dereferenced). -/
def dropWalk (mem : List (Node T)) : Nat → Option Nat → Option (List Nat)
  | _, none => some []
  | 0, some _ => none
  | fuel + 1, some p =>
    match mem[p]? with
    | none => none
    | some nd => (dropWalk mem fuel nd.next).map (p :: ·)

theorem dropWalk_chain {mem : List (Node T)} {h : Option Nat} {c : List Nat}
    (hc : Chain mem h c) :
    ∀ fuel, c.length ≤ fuel → dropWalk mem fuel h = some c := by
  induction hc with
  | nil => intro fuel _; cases fuel <;> rfl
  | cons hget htail ih =>
    intro fuel hfuel
    cases fuel with
    | zero => simp at hfuel
    | succ fuel =>
      simp only [dropWalk, hget]
      rw [ih fuel (by simpa using hfuel)]
      rfl

theorem chainVals_length {mem : List (Node T)} {h : Option Nat} {c : List Nat}
    (hc : Chain mem h c) : (chainVals mem c).length = c.length := by
  induction hc with
  | nil => rfl
  | cons hget htail ih =>
    simp only [chainVals, List.filterMap_cons] at ih ⊢
    simp [valAt, hget, ih]

/-- `is_empty` as a state transformer: the pin and the Acquire load read but
never write, so the stack state is returned unchanged. -/
def Stack.is_empty_op (s : Stack T) : Bool × Stack T := (s.head.isNone, s)

/-- Shared helper: on reachable states, `pop` returns `none` exactly when
`head` is null. -/
theorem pop_fst_none_iff {s : Stack T} (hr : Reach s) :
    (s.pop).1 = none ↔ s.head = none := by
  constructor
  · intro h
    cases hh : s.head with
    | none => rfl
    | some p =>
      obtain ⟨nd, hget⟩ := reach_head_valid hr hh
      rw [pop_cons hh hget] at h
      simp at h
  · intro h
    rw [pop_none_of_empty h]

/-- C1: LIFO order — pushing `v1..vn` sequentially onto a freshly
constructed stack and then popping `n + 1` times yields
`vn, vn-1, …, v1` and then `none`. -/
theorem C1_lifo_order (T : Type u) (vs : List T) :
    popStream (pushAll Stack.new vs) (vs.length + 1) =
      vs.reverse.map some ++ [none] := by
  have hinv := pushAll_seqInv (new_seqInv T) vs
  have htl : (pushAll (Stack.new : Stack T) vs).toList = vs.reverse := by
    rw [pushAll_toList (new_seqInv T), new_toList, List.append_nil]
  have := popStream_spec hinv htl
  rwa [List.length_reverse] at this

/-- C2: the literal scenario
`push 1; push 2; push 3; pop; push 4; pop; pop; pop; pop; push 5; pop; pop`
on a fresh stack returns `some 3, some 4, some 2, some 1, none, some 5,
none` from the respective pops. -/
theorem C2_literal_scenario :
    (run (Stack.new : Stack Nat)
        [.push 1, .push 2, .push 3, .pop, .push 4, .pop, .pop, .pop, .pop,
          .push 5, .pop, .pop]).2 =
      [some 3, some 4, some 2, some 1, none, some 5, none] := by
  rfl

/-- C3: destructor-exactly-once — for any single-threaded operation
sequence on a fresh stack, the number of pushed values equals the number of
pops that returned a value plus the number of elements remaining at
teardown; and the teardown loop terminates, freeing each remaining node
exactly once (the freed addresses are `Nodup` and as many as the remaining
elements), so each payload's destructor runs exactly once in total. -/
theorem C3_destructor_once (T : Type u) (ops : List (Op T)) :
    pushCount ops =
      someCount (run Stack.new ops).2 + (run Stack.new ops).1.toList.length ∧
    ∃ c, dropWalk (run Stack.new ops).1.mem (run Stack.new ops).1.mem.length
          (run Stack.new ops).1.head = some c ∧ c.Nodup ∧
        c.length = (run Stack.new ops).1.toList.length := by
  obtain ⟨ha, hb⟩ := run_spec (new_seqInv T) ops
  constructor
  · simpa [new_toList] using hb
  · obtain ⟨c, hc⟩ := ha
    refine ⟨c, dropWalk_chain hc _ (chain_length_le hc), chain_nodup hc, ?_⟩
    rw [toList_chain hc, chainVals_length hc]

/-- C4: on every reachable state, `pop` returns the absent value `none`
exactly when `head` is null at its load; all operations of the embedding
are total functions, so no other failure outcome exists. -/
theorem C4_pop_none_iff_null {T : Type u} {s : Stack T} (hr : Reach s) :
    (s.pop).1 = none ↔ s.head = none :=
  pop_fst_none_iff hr

/-- Witness for C4 at the freshly constructed stack. -/
theorem C4_pop_none_iff_null_witness :
    Reach (Stack.new : Stack Nat) ∧
      (((Stack.new : Stack Nat).pop).1 = none ↔
        (Stack.new : Stack Nat).head = none) :=
  ⟨Reach.new, C4_pop_none_iff_null Reach.new⟩

/-- C5: on every reachable state, `is_empty` returns `true` iff an
immediately following `pop` returns `none`; and `is_empty` itself returns
whether the head pointer is null. -/
theorem C5_is_empty_agrees_with_pop {T : Type u} {s : Stack T}
    (hr : Reach s) :
    (s.is_empty = true ↔ (s.pop).1 = none) ∧
      (s.is_empty = true ↔ s.head = none) := by
  have hnull : s.is_empty = true ↔ s.head = none := by
    simp [Stack.is_empty, Option.isNone_iff_eq_none]
  exact ⟨hnull.trans (pop_fst_none_iff hr).symm, hnull⟩

/-- Witness for C5 at a one-element stack. -/
theorem C5_is_empty_agrees_with_pop_witness :
    Reach ((Stack.new : Stack Nat).push 1) ∧
      ((((Stack.new : Stack Nat).push 1).is_empty = true ↔
          (((Stack.new : Stack Nat).push 1).pop).1 = none) ∧
        (((Stack.new : Stack Nat).push 1).is_empty = true ↔
          ((Stack.new : Stack Nat).push 1).head = none)) :=
  ⟨Reach.push 1 Reach.new, C5_is_empty_agrees_with_pop (Reach.push 1 Reach.new)⟩

/-- C6: `push v` allocates exactly one new node (the arena grows by one),
`head` ends up pointing at it, the node holds payload `v` and, as its
`next`, the head value current at the successful CAS; all previously
allocated nodes are untouched, and on the abstract list `push` is exactly
a prepend. -/
theorem C6_push_prepends {T : Type u} {s : Stack T} (hr : Reach s) (v : T) :
    (s.push v).mem.length = s.mem.length + 1 ∧
      (s.push v).head = some s.mem.length ∧
      (s.push v).mem[s.mem.length]? = some ⟨v, s.head⟩ ∧
      (∀ i, i < s.mem.length → (s.push v).mem[i]? = s.mem[i]?) ∧
      (s.push v).toList = v :: s.toList := by
  rw [push_eq]
  refine ⟨by simp, rfl, ?_, ?_, ?_⟩
  · rw [List.getElem?_append_right (le_refl _)]
    simp
  · intro i hi
    exact List.getElem?_append_left hi
  · rw [← push_eq]
    exact push_toList (reach_seqInv hr) v

/-- Witness for C6 at the freshly constructed stack and payload `7`. -/
theorem C6_push_prepends_witness :
    Reach (Stack.new : Stack Nat) ∧
      (((Stack.new : Stack Nat).push 7).mem.length =
          (Stack.new : Stack Nat).mem.length + 1 ∧
        ((Stack.new : Stack Nat).push 7).head =
          some (Stack.new : Stack Nat).mem.length ∧
        ((Stack.new : Stack Nat).push 7).mem[(Stack.new :
          Stack Nat).mem.length]? = some ⟨7, (Stack.new : Stack Nat).head⟩ ∧
        (∀ i, i < (Stack.new : Stack Nat).mem.length →
          ((Stack.new : Stack Nat).push 7).mem[i]? =
            (Stack.new : Stack Nat).mem[i]?) ∧
        ((Stack.new : Stack Nat).push 7).toList =
          7 :: (Stack.new : Stack Nat).toList) :=
  ⟨Reach.new, C6_push_prepends Reach.new 7⟩

/-- C9: for every reachable state, the teardown loop of `Drop` terminates
(within `mem.length` iterations it reaches null), visiting each node of the
list rooted at `head` exactly once; the freed nodes carry exactly the
remaining abstract contents. -/
theorem C9_drop_terminates {T : Type u} {s : Stack T} (hr : Reach s) :
    ∃ c, dropWalk s.mem s.mem.length s.head = some c ∧ c.Nodup ∧
      chainVals s.mem c = s.toList := by
  obtain ⟨c, hc⟩ := reach_seqInv hr
  exact ⟨c, dropWalk_chain hc _ (chain_length_le hc), chain_nodup hc,
    (toList_chain hc).symm⟩

/-- Witness for C9 at a one-element stack. -/
theorem C9_drop_terminates_witness :
    Reach ((Stack.new : Stack Nat).push 1) ∧
      ∃ c, dropWalk ((Stack.new : Stack Nat).push 1).mem
          ((Stack.new : Stack Nat).push 1).mem.length
          ((Stack.new : Stack Nat).push 1).head = some c ∧ c.Nodup ∧
        chainVals ((Stack.new : Stack Nat).push 1).mem c =
          ((Stack.new : Stack Nat).push 1).toList :=
  ⟨Reach.push 1 Reach.new, C9_drop_terminates (Reach.push 1 Reach.new)⟩

/-- C10: `is_empty` never modifies the stack (its only access is a load);
a `pop` that returns `none` leaves the state completely unchanged; and the
only changes ever made to the list are the prepend by `push` and the
head removal by a `pop` that returns a value. -/
theorem C10_read_only_frame {T : Type u} {s : Stack T} (hr : Reach s) :
    (s.is_empty_op).2 = s ∧
      ((s.pop).1 = none → (s.pop).2 = s) ∧
      (∀ v, (s.push v).toList = v :: s.toList) ∧
      (∀ v, (s.pop).1 = some v → s.toList = v :: (s.pop).2.toList) := by
  refine ⟨rfl, ?_, fun v => push_toList (reach_seqInv hr) v, ?_⟩
  · intro hn
    rw [pop_none_of_empty ((pop_fst_none_iff hr).mp hn)]
  · intro v hv
    obtain ⟨h1, h2, _⟩ := pop_toList (reach_seqInv hr)
    rw [hv] at h1
    cases hl : s.toList with
    | nil => rw [hl] at h1; simp at h1
    | cons a l =>
      rw [hl] at h1 h2
      simp only [List.head?_cons] at h1
      cases h1
      rw [h2]
      simp

/-- Witness for C10 at a one-element stack. -/
theorem C10_read_only_frame_witness :
    Reach ((Stack.new : Stack Nat).push 1) ∧
      ((((Stack.new : Stack Nat).push 1).is_empty_op).2 =
          (Stack.new : Stack Nat).push 1 ∧
        ((((Stack.new : Stack Nat).push 1).pop).1 = none →
          (((Stack.new : Stack Nat).push 1).pop).2 =
            (Stack.new : Stack Nat).push 1) ∧
        (∀ v, (((Stack.new : Stack Nat).push 1).push v).toList =
          v :: ((Stack.new : Stack Nat).push 1).toList) ∧
        (∀ v, (((Stack.new : Stack Nat).push 1).pop).1 = some v →
          ((Stack.new : Stack Nat).push 1).toList =
            v :: (((Stack.new : Stack Nat).push 1).pop).2.toList)) :=
  ⟨Reach.push 1 Reach.new, C10_read_only_frame (Reach.push 1 Reach.new)⟩

/-! ## Concurrent model

Each thread is a small state machine whose states are the program points of
`push` and `pop` between consecutive atomic accesses of `src/stack.rs`.
Steps of distinct threads interleave arbitrarily; a weak CAS may fail
spuriously (the failure step carries no premise on `head`). -/

/-- The program points of an in-flight operation:

* `idle` — between operations;
* `pushLoad p` — `push` has allocated `Owned::new(Node {value, next: null})`
  at address `p` and is about to `head.load(Acquire)`;
* `pushStore p h` — `push` holds loaded (or CAS-refreshed) value `h` and is
  about to `node.next.store(h, Relaxed)`;
* `pushCas p h` — the store is done, about to
  `head.compare_and_swap_weak_owned(h, node, AcqRel)`;
* `popLoad` — `pop` is about to `head.load(Acquire)`;
* `popCheck h` — `pop` holds loaded (or CAS-refreshed) value `h` and is at
  the `match head.as_ref()`;
* `popRead p` — `head` was non-null (`p`), about to `h.next.load(Acquire)`;
* `popCas p n` — read `next = n`, about to
  `head.compare_and_swap_weak(p, n, AcqRel)`. -/
inductive TState (T : Type u)
  | idle
  | pushLoad (p : Nat)
  | pushStore (p : Nat) (h : Option Nat)
  | pushCas (p : Nat) (h : Option Nat)
  | popLoad
  | popCheck (h : Option Nat)
  | popRead (p : Nat)
  | popCas (p : Nat) (n : Option Nat)
deriving Repr, DecidableEq

/-- Global state of the concurrent system: the shared arena and `head`,
the per-thread program points, and ghost bookkeeping (multisets of values
whose pushes/pops started/succeeded, and retired addresses). -/
structure Sys (T : Type u) where
  mem : List (Node T)
  head : Option Nat
  threads : List (TState T)
  pushed : Multiset T
  popped : Multiset T
  freed : List Nat

/-- The address of the thread's still-unpublished owned node, if any. -/
def unpub {T : Type u} : TState T → Option Nat
  | .pushLoad p => some p
  | .pushStore p _ => some p
  | .pushCas p _ => some p
  | _ => none

/-- The payload at address `p`, as a multiset (empty if out of range). -/
def valM (mem : List (Node T)) (p : Nat) : Multiset T :=
  match mem[p]? with
  | some nd => {nd.value}
  | none => 0

/-- The payload owned by an in-flight push at this program point. -/
def tsVal (mem : List (Node T)) (ts : TState T) : Multiset T :=
  match unpub ts with
  | some p => valM mem p
  | none => 0

/-- All payloads held by in-flight pushes (allocated, not yet published). -/
def inflightOf (mem : List (Node T)) (threads : List (TState T)) : Multiset T :=
  (threads.map (tsVal mem)).sum

/-- One interleaved step of the system: some thread advances from one atomic
access of `src/stack.rs` to the next. -/
inductive Step : Sys T → Sys T → Prop
  /-- `push(value)` begins: `Owned::new(Node { value, next: null })`
  allocates at the fresh address `mem.length`. -/
  | pushBegin (s : Sys T) (i : Nat) (v : T) :
      s.threads[i]? = some .idle →
      Step s { s with
        mem := s.mem ++ [⟨v, none⟩],
        threads := s.threads.set i (.pushLoad s.mem.length),
        pushed := v ::ₘ s.pushed }
  /-- `push`: `head.load(Acquire)`. -/
  | pushLoadStep (s : Sys T) (i : Nat) (p : Nat) :
      s.threads[i]? = some (.pushLoad p) →
      Step s { s with threads := s.threads.set i (.pushStore p s.head) }
  /-- `push`: `node.next.store(h, Relaxed)` — the payload is untouched. -/
  | pushStoreStep (s : Sys T) (i : Nat) (p : Nat) (h : Option Nat)
      (nd : Node T) :
      s.threads[i]? = some (.pushStore p h) →
      s.mem[p]? = some nd →
      Step s { s with
        mem := s.mem.set p ⟨nd.value, h⟩,
        threads := s.threads.set i (.pushCas p h) }
  /-- `push`: the weak owned CAS succeeds (`head` still equals `h`):
  the node is published and the operation completes. -/
  | pushCasOk (s : Sys T) (i : Nat) (p : Nat) (h : Option Nat) :
      s.threads[i]? = some (.pushCas p h) →
      s.head = h →
      Step s { s with head := some p, threads := s.threads.set i .idle }
  /-- `push`: the weak owned CAS fails (possibly spuriously): the loop
  receives back the same still-owned node and the refreshed `head`. -/
  | pushCasFail (s : Sys T) (i : Nat) (p : Nat) (h : Option Nat) :
      s.threads[i]? = some (.pushCas p h) →
      Step s { s with threads := s.threads.set i (.pushStore p s.head) }
  /-- `pop()` begins. -/
  | popBegin (s : Sys T) (i : Nat) :
      s.threads[i]? = some .idle →
      Step s { s with threads := s.threads.set i .popLoad }
  /-- `pop`: `head.load(Acquire)`. -/
  | popLoadStep (s : Sys T) (i : Nat) :
      s.threads[i]? = some .popLoad →
      Step s { s with threads := s.threads.set i (.popCheck s.head) }
  /-- `pop`: `head.as_ref()` is `None` — return `None`. -/
  | popEmpty (s : Sys T) (i : Nat) :
      s.threads[i]? = some (.popCheck none) →
      Step s { s with threads := s.threads.set i .idle }
  /-- `pop`: `head.as_ref()` is `Some` — dereference it. -/
  | popDeref (s : Sys T) (i : Nat) (p : Nat) :
      s.threads[i]? = some (.popCheck (some p)) →
      Step s { s with threads := s.threads.set i (.popRead p) }
  /-- `pop`: `h.next.load(Acquire)`. -/
  | popReadStep (s : Sys T) (i : Nat) (p : Nat) (nd : Node T) :
      s.threads[i]? = some (.popRead p) →
      s.mem[p]? = some nd →
      Step s { s with threads := s.threads.set i (.popCas p nd.next) }
  /-- `pop`: the weak CAS succeeds (`head` still equals `some p`): the old
  head is detached, `scope.defer_free(head)` retires it, and
  `ptr::read(&h.value)` moves the payload out. -/
  | popCasOk (s : Sys T) (i : Nat) (p : Nat) (n : Option Nat) (nd : Node T) :
      s.threads[i]? = some (.popCas p n) →
      s.head = some p →
      s.mem[p]? = some nd →
      Step s { s with
        head := n,
        threads := s.threads.set i .idle,
        popped := nd.value ::ₘ s.popped,
        freed := p :: s.freed }
  /-- `pop`: the weak CAS fails (possibly spuriously): retry with the
  refreshed `head`. -/
  | popCasFail (s : Sys T) (i : Nat) (p : Nat) (n : Option Nat) :
      s.threads[i]? = some (.popCas p n) →
      Step s { s with threads := s.threads.set i (.popCheck s.head) }

/-- The initial system: a fresh `Stack::new()` shared by `n` idle threads. -/
def init (T : Type u) (n : Nat) : Sys T :=
  ⟨[], none, List.replicate n .idle, 0, 0, []⟩

/-- Finitely many interleaved steps. -/
inductive Steps : Sys T → Sys T → Prop
  | refl (s : Sys T) : Steps s s
  | tail {s s' s'' : Sys T} : Steps s s' → Step s' s'' → Steps s s''

theorem sum_set_add {M : Type u} [AddCommMonoid M] (l : List M) (i : Nat)
    (a b : M) (h : l[i]? = some a) : (l.set i b).sum + a = l.sum + b := by
  induction l generalizing i with
  | nil => simp at h
  | cons x xs ih =>
    cases i with
    | zero =>
      simp only [List.getElem?_cons_zero, Option.some_inj] at h
      subst h
      simp only [List.set, List.sum_cons]
      abel
    | succ i =>
      simp only [List.getElem?_cons_succ] at h
      simp only [List.set, List.sum_cons]
      rw [add_assoc, ih i h, ← add_assoc]

theorem inflightOf_set (mem : List (Node T)) {threads : List (TState T)}
    {i : Nat} {ts : TState T} (h : threads[i]? = some ts) (ts' : TState T) :
    inflightOf mem (threads.set i ts') + tsVal mem ts =
      inflightOf mem threads + tsVal mem ts' := by
  unfold inflightOf
  rw [List.map_set]
  exact sum_set_add _ i _ _ (by rw [List.getElem?_map, h]; rfl)

theorem inflightOf_congr {mem mem' : List (Node T)}
    {threads : List (TState T)}
    (h : ∀ ts ∈ threads, tsVal mem' ts = tsVal mem ts) :
    inflightOf mem' threads = inflightOf mem threads := by
  unfold inflightOf
  rw [List.map_congr_left h]

theorem inflightOf_idle {mem : List (Node T)} {threads : List (TState T)}
    (h : ∀ ts ∈ threads, ts = TState.idle) :
    inflightOf mem threads = 0 := by
  unfold inflightOf
  refine List.sum_eq_zero ?_
  intro x hx
  obtain ⟨ts, hts, rfl⟩ := List.mem_map.mp hx
  rw [h ts hts]
  rfl

theorem valM_append {mem : List (Node T)} {p : Nat} (hp : p < mem.length)
    (l : List (Node T)) : valM (mem ++ l) p = valM mem p := by
  unfold valM
  rw [List.getElem?_append_left hp]

theorem valM_set_value {mem : List (Node T)} {q : Nat} {nd : Node T}
    (hget : mem[q]? = some nd) (h : Option Nat) (p : Nat) :
    valM (mem.set q ⟨nd.value, h⟩) p = valM mem p := by
  unfold valM
  rcases eq_or_ne q p with rfl | hne
  · rw [List.getElem?_set_self (List.getElem?_eq_some_iff.mp hget).1, hget]
  · rw [List.getElem?_set_ne hne]

theorem lookup_lt {α : Type u} {l : List α} {i : Nat} {a : α}
    (h : l[i]? = some a) : i < l.length :=
  (List.getElem?_eq_some_iff.mp h).1

theorem set_lookup_cases {α : Type u} {l : List α} {i j : Nat} {b x : α}
    (hi : i < l.length) (h : (l.set i b)[j]? = some x) :
    (i = j ∧ x = b) ∨ (i ≠ j ∧ l[j]? = some x) := by
  rcases eq_or_ne i j with rfl | hne
  · rw [List.getElem?_set_self hi] at h
    exact Or.inl ⟨rfl, (Option.some_inj.mp h).symm⟩
  · rw [List.getElem?_set_ne hne] at h
    exact Or.inr ⟨hne, h⟩

/-- The node at `p` is exclusively owned and unpublished: a valid address,
neither on the shared list nor retired. -/
def Unpub (mem : List (Node T)) (c freed : List Nat) (p : Nat) : Prop :=
  p < mem.length ∧ p ∉ c ∧ p ∉ freed

/-- The node at `p` exists and its `next` field holds `x`. -/
def NextIs (mem : List (Node T)) (p : Nat) (x : Option Nat) : Prop :=
  ∃ nd : Node T, mem[p]? = some nd ∧ nd.next = x

/-- Per-thread ownership facts maintained by the invariant:
a push between its atomic accesses exclusively owns its unpublished node
(at `pushCas p h` the node's `next` already holds `h`); a pop's locally
loaded pointer is published (on the list or retired — its memory stays
valid thanks to epoch-based reclamation), and at `popCas p n` the value `n`
it read from `p`'s immutable-after-publication `next` field is still
current. -/
def TInv (mem : List (Node T)) (c freed : List Nat) : TState T → Prop
  | .idle => True
  | .pushLoad p => Unpub mem c freed p
  | .pushStore p _ => Unpub mem c freed p
  | .pushCas p h => Unpub mem c freed p ∧ NextIs mem p h
  | .popLoad => True
  | .popCheck none => True
  | .popCheck (some p) => p ∈ c ∨ p ∈ freed
  | .popRead p => p ∈ c ∨ p ∈ freed
  | .popCas p n => (p ∈ c ∨ p ∈ freed) ∧ NextIs mem p n

/-- The global invariant of the concurrent system, relative to the chain
`c` of addresses currently on the shared list. -/
structure SysInv (s : Sys T) (c : List Nat) : Prop where
  hchain : Chain s.mem s.head c
  hthread : ∀ (i : Nat) (ts : TState T), s.threads[i]? = some ts →
      TInv s.mem c s.freed ts
  hdisj : ∀ (i j : Nat) (tsi tsj : TState T) (p q : Nat), i ≠ j →
      s.threads[i]? = some tsi → s.threads[j]? = some tsj →
      unpub tsi = some p → unpub tsj = some q → p ≠ q
  hfreed : ∀ p ∈ s.freed, p < s.mem.length ∧ p ∉ c
  hacc : s.pushed =
      s.popped + ↑(chainVals s.mem c) + inflightOf s.mem s.threads

theorem unpub_spec {mem : List (Node T)} {c freed : List Nat} {ts : TState T}
    {q : Nat} (hu : unpub ts = some q) (ht : TInv mem c freed ts) :
    Unpub mem c freed q := by
  cases ts with
  | pushLoad p => cases hu; exact ht
  | pushStore p h => cases hu; exact ht
  | pushCas p h => cases hu; exact ht.1
  | idle => exact absurd hu (by simp [unpub])
  | popLoad => exact absurd hu (by simp [unpub])
  | popCheck h => exact absurd hu (by simp [unpub])
  | popRead p => exact absurd hu (by simp [unpub])
  | popCas p n => exact absurd hu (by simp [unpub])

theorem pub_lt {s : Sys T} {c : List Nat} (inv : SysInv s c) {p : Nat}
    (hp : p ∈ c ∨ p ∈ s.freed) : p < s.mem.length :=
  hp.elim (fun h => chain_lt inv.hchain p h) (fun h => (inv.hfreed p h).1)

theorem NextIs_append {mem : List (Node T)} {p : Nat} {x : Option Nat}
    (h : NextIs mem p x) (l : List (Node T)) : NextIs (mem ++ l) p x :=
  let ⟨nd, hget, hnx⟩ := h
  ⟨nd, by rw [List.getElem?_append_left (lookup_lt hget)]; exact hget, hnx⟩

theorem NextIs_set_other {mem : List (Node T)} {q : Nat} {x : Option Nat}
    (h : NextIs mem q x) {p : Nat} (hq : q ≠ p) (nd' : Node T) :
    NextIs (mem.set p nd') q x :=
  let ⟨nd, hget, hnx⟩ := h
  ⟨nd, by rw [List.getElem?_set_ne (Ne.symm hq)]; exact hget, hnx⟩

theorem Unpub_append {mem : List (Node T)} {c freed : List Nat} {p : Nat}
    (h : Unpub mem c freed p) (l : List (Node T)) :
    Unpub (mem ++ l) c freed p :=
  ⟨by have := h.1; simp only [List.length_append]; omega, h.2.1, h.2.2⟩

/-- Thread facts survive extending the arena with fresh nodes. -/
theorem TInv_append {mem : List (Node T)} {c freed : List Nat}
    {ts : TState T} (h : TInv mem c freed ts) (l : List (Node T)) :
    TInv (mem ++ l) c freed ts := by
  cases ts with
  | idle => trivial
  | popLoad => trivial
  | popCheck x => cases x with
    | none => trivial
    | some p => exact h
  | popRead p => exact h
  | pushLoad p => exact Unpub_append h l
  | pushStore p x => exact Unpub_append h l
  | pushCas p x => exact ⟨Unpub_append h.1 l, NextIs_append h.2 l⟩
  | popCas p n => exact ⟨h.1, NextIs_append h.2 l⟩

/-- Thread facts survive a store to an address `p` that is unpublished and
owned by a different thread. -/
theorem TInv_set_other {mem : List (Node T)} {c freed : List Nat}
    {ts : TState T} (hT : TInv mem c freed ts) {p : Nat} (nd' : Node T)
    (hp_c : p ∉ c) (hp_f : p ∉ freed)
    (hdiff : ∀ q, unpub ts = some q → q ≠ p) :
    TInv (mem.set p nd') c freed ts := by
  have hlen : (mem.set p nd').length = mem.length := List.length_set mem p nd'
  cases ts with
  | idle => trivial
  | popLoad => trivial
  | popCheck x => cases x with
    | none => trivial
    | some q => exact hT
  | popRead q => exact hT
  | pushLoad q => exact ⟨by rw [hlen]; exact hT.1, hT.2.1, hT.2.2⟩
  | pushStore q x => exact ⟨by rw [hlen]; exact hT.1, hT.2.1, hT.2.2⟩
  | pushCas q x =>
    refine ⟨⟨by rw [hlen]; exact hT.1.1, hT.1.2.1, hT.1.2.2⟩, ?_⟩
    exact NextIs_set_other hT.2 (hdiff q rfl) nd'
  | popCas q n =>
    refine ⟨hT.1, ?_⟩
    have hq : q ≠ p := by
      rcases hT.1 with hc | hf
      · exact fun he => hp_c (he ▸ hc)
      · exact fun he => hp_f (he ▸ hf)
    exact NextIs_set_other hT.2 hq nd'

/-- Thread facts survive a new node `p` being published at the head. -/
theorem TInv_chain_grow {mem : List (Node T)} {c freed : List Nat}
    {ts : TState T} (hT : TInv mem c freed ts) {p : Nat}
    (hdiff : ∀ q, unpub ts = some q → q ≠ p) :
    TInv mem (p :: c) freed ts := by
  cases ts with
  | idle => trivial
  | popLoad => trivial
  | popCheck x => cases x with
    | none => trivial
    | some q => exact hT.imp (List.mem_cons_of_mem p) id
  | popRead q => exact hT.imp (List.mem_cons_of_mem p) id
  | pushLoad q =>
    refine ⟨hT.1, ?_, hT.2.2⟩
    intro hm
    rcases List.mem_cons.mp hm with rfl | hm
    · exact hdiff q rfl rfl
    · exact hT.2.1 hm
  | pushStore q x =>
    refine ⟨hT.1, ?_, hT.2.2⟩
    intro hm
    rcases List.mem_cons.mp hm with rfl | hm
    · exact hdiff q rfl rfl
    · exact hT.2.1 hm
  | pushCas q x =>
    refine ⟨⟨hT.1.1, ?_, hT.1.2.2⟩, hT.2⟩
    intro hm
    rcases List.mem_cons.mp hm with rfl | hm
    · exact hdiff q rfl rfl
    · exact hT.1.2.1 hm
  | popCas q n => exact ⟨hT.1.imp (List.mem_cons_of_mem p) id, hT.2⟩

/-- Thread facts survive the head node `p` being detached and retired. -/
theorem TInv_pop_shift {mem : List (Node T)} {freed : List Nat}
    {ts : TState T} {p : Nat} {rest : List Nat}
    (hT : TInv mem (p :: rest) freed ts) :
    TInv mem rest (p :: freed) ts := by
  have shift : ∀ q : Nat, q ∈ p :: rest ∨ q ∈ freed →
      q ∈ rest ∨ q ∈ p :: freed := by
    intro q hq
    rcases hq with hc | hf
    · rcases List.mem_cons.mp hc with rfl | hm
      · exact Or.inr (List.mem_cons_self _ _)
      · exact Or.inl hm
    · exact Or.inr (List.mem_cons_of_mem p hf)
  cases ts with
  | idle => trivial
  | popLoad => trivial
  | popCheck x => cases x with
    | none => trivial
    | some q => exact shift q hT
  | popRead q => exact shift q hT
  | pushLoad q =>
    refine ⟨hT.1, fun hm => hT.2.1 (List.mem_cons_of_mem p hm), ?_⟩
    intro hm
    rcases List.mem_cons.mp hm with rfl | hm
    · exact hT.2.1 (List.mem_cons_self _ _)
    · exact hT.2.2 hm
  | pushStore q x =>
    refine ⟨hT.1, fun hm => hT.2.1 (List.mem_cons_of_mem p hm), ?_⟩
    intro hm
    rcases List.mem_cons.mp hm with rfl | hm
    · exact hT.2.1 (List.mem_cons_self _ _)
    · exact hT.2.2 hm
  | pushCas q x =>
    refine ⟨⟨hT.1.1, fun hm => hT.1.2.1 (List.mem_cons_of_mem p hm), ?_⟩,
      hT.2⟩
    intro hm
    rcases List.mem_cons.mp hm with rfl | hm
    · exact hT.1.2.1 (List.mem_cons_self _ _)
    · exact hT.1.2.2 hm
  | popCas q n => exact ⟨shift q hT.1, hT.2⟩

theorem disj_preserved {threads : List (TState T)} {i : Nat}
    {ts ts' : TState T} (h : threads[i]? = some ts)
    (hu : unpub ts' = unpub ts)
    (hd : ∀ (j k : Nat) (tsj tsk : TState T) (p q : Nat), j ≠ k →
      threads[j]? = some tsj → threads[k]? = some tsk →
      unpub tsj = some p → unpub tsk = some q → p ≠ q) :
    ∀ (j k : Nat) (tsj tsk : TState T) (p q : Nat), j ≠ k →
      (threads.set i ts')[j]? = some tsj →
      (threads.set i ts')[k]? = some tsk → unpub tsj = some p →
      unpub tsk = some q → p ≠ q := by
  intro j k tsj tsk p q hjk hj hk hpj hqk
  have hi := lookup_lt h
  rcases set_lookup_cases hi hj with ⟨rfl, rfl⟩ | ⟨hnej, hj'⟩
  · rcases set_lookup_cases hi hk with ⟨rfl, rfl⟩ | ⟨hnek, hk'⟩
    · exact absurd rfl hjk
    · exact hd i k ts tsk p q hjk h hk' (hu.symm.trans hpj) hqk
  · rcases set_lookup_cases hi hk with ⟨rfl, rfl⟩ | ⟨hnek, hk'⟩
    · exact hd j i tsj ts p q hjk hj' h hpj (hu.symm.trans hqk)
    · exact hd j k tsj tsk p q hjk hj' hk' hpj hqk

theorem disj_to_none {threads : List (TState T)} {i : Nat}
    {ts ts' : TState T} (h : threads[i]? = some ts)
    (hu : unpub ts' = none)
    (hd : ∀ (j k : Nat) (tsj tsk : TState T) (p q : Nat), j ≠ k →
      threads[j]? = some tsj → threads[k]? = some tsk →
      unpub tsj = some p → unpub tsk = some q → p ≠ q) :
    ∀ (j k : Nat) (tsj tsk : TState T) (p q : Nat), j ≠ k →
      (threads.set i ts')[j]? = some tsj →
      (threads.set i ts')[k]? = some tsk → unpub tsj = some p →
      unpub tsk = some q → p ≠ q := by
  intro j k tsj tsk p q hjk hj hk hpj hqk
  have hi := lookup_lt h
  rcases set_lookup_cases hi hj with ⟨rfl, rfl⟩ | ⟨hnej, hj'⟩
  · rw [hu] at hpj
    exact absurd hpj (by simp)
  · rcases set_lookup_cases hi hk with ⟨rfl, rfl⟩ | ⟨hnek, hk'⟩
    · rw [hu] at hqk
      exact absurd hqk (by simp)
    · exact hd j k tsj tsk p q hjk hj' hk' hpj hqk

theorem inflightOf_set_same (mem : List (Node T))
    {threads : List (TState T)} {i : Nat} {ts : TState T}
    (h : threads[i]? = some ts) (ts' : TState T)
    (he : tsVal mem ts' = tsVal mem ts) :
    inflightOf mem (threads.set i ts') = inflightOf mem threads := by
  have h0 := inflightOf_set mem h ts'
  rw [he] at h0
  exact add_right_cancel h0

theorem inflight_stable {s : Sys T} {c : List Nat} (inv : SysInv s c)
    {mem' : List (Node T)}
    (hval : ∀ p, p < s.mem.length → valM mem' p = valM s.mem p) :
    inflightOf mem' s.threads = inflightOf s.mem s.threads := by
  refine inflightOf_congr ?_
  intro ts hts
  obtain ⟨j, hj⟩ := List.getElem?_of_mem hts
  have htj := inv.hthread j ts hj
  cases ts with
  | pushLoad p => exact hval p htj.1
  | pushStore p h => exact hval p htj.1
  | pushCas p h => exact hval p htj.1.1
  | idle => rfl
  | popLoad => rfl
  | popCheck h => rfl
  | popRead p => rfl
  | popCas p n => rfl

theorem chainVals_cons_of_get {mem : List (Node T)} {p : Nat} {nd : Node T}
    (hget : mem[p]? = some nd) (c : List Nat) :
    chainVals mem (p :: c) = nd.value :: chainVals mem c := by
  simp [chainVals, valAt, hget]

theorem valM_eq_singleton {mem : List (Node T)} {p : Nat} {nd : Node T}
    (hget : mem[p]? = some nd) : valM mem p = {nd.value} := by
  unfold valM
  rw [hget]

theorem NextIs_det {mem : List (Node T)} {p : Nat} {n : Option Nat}
    {nd : Node T} (h : NextIs mem p n) (hget : mem[p]? = some nd) :
    nd.next = n := by
  obtain ⟨nd', hget', hnx⟩ := h
  have he : nd' = nd := Option.some_inj.mp (hget'.symm.trans hget)
  exact he ▸ hnx

/-- The invariant is preserved by every interleaved step. -/
theorem inv_step {s s' : Sys T} {c : List Nat} (inv : SysInv s c)
    (hst : Step s s') : ∃ c', SysInv s' c' := by
  cases hst with
  | pushBegin i v h =>
    refine ⟨c, chain_append inv.hchain _, ?_, ?_, ?_, ?_⟩
    · intro j ts hj
      rcases set_lookup_cases (lookup_lt h) hj with ⟨rfl, rfl⟩ | ⟨hne, hj'⟩
      · refine ⟨by simp, ?_, ?_⟩
        · intro hm
          exact absurd (chain_lt inv.hchain _ hm) (lt_irrefl _)
        · intro hm
          exact absurd (inv.hfreed _ hm).1 (lt_irrefl _)
      · exact TInv_append (inv.hthread j ts hj') _
    · intro j k tsj tsk p q hjk hj hk hpj hqk
      rcases set_lookup_cases (lookup_lt h) hj with ⟨rfl, rfl⟩ | ⟨hnej, hj'⟩
      · simp only [unpub, Option.some_inj] at hpj
        subst hpj
        rcases set_lookup_cases (lookup_lt h) hk with ⟨rfl, rfl⟩ | ⟨hnek, hk'⟩
        · exact absurd rfl hjk
        · have hql := (unpub_spec hqk (inv.hthread k tsk hk')).1
          omega
      · rcases set_lookup_cases (lookup_lt h) hk with ⟨rfl, rfl⟩ | ⟨hnek, hk'⟩
        · simp only [unpub, Option.some_inj] at hqk
          subst hqk
          have hpl := (unpub_spec hpj (inv.hthread j tsj hj')).1
          omega
        · exact inv.hdisj j k tsj tsk p q hjk hj' hk' hpj hqk
    · intro p hp
      obtain ⟨h1, h2⟩ := inv.hfreed p hp
      exact ⟨by simp only [List.length_append]; omega, h2⟩
    · show v ::ₘ s.pushed = s.popped +
        ↑(chainVals (s.mem ++ [⟨v, none⟩]) c) +
        inflightOf (s.mem ++ [⟨v, none⟩])
          (s.threads.set i (.pushLoad s.mem.length))
      rw [chainVals_append (chain_lt inv.hchain)]
      have hset := inflightOf_set (s.mem ++ [⟨v, none⟩]) h
        (.pushLoad s.mem.length)
      rw [show tsVal (s.mem ++ [⟨v, none⟩]) TState.idle = 0 from rfl,
        add_zero] at hset
      have hnew : tsVal (s.mem ++ [⟨v, none⟩])
          (TState.pushLoad s.mem.length) = {v} := by
        show valM (s.mem ++ [⟨v, none⟩]) s.mem.length = {v}
        unfold valM
        rw [List.getElem?_concat_length]
      rw [hnew, inflight_stable inv (fun p hp => valM_append hp _)] at hset
      rw [hset, inv.hacc, ← Multiset.singleton_add]
      abel
  | pushLoadStep i p h =>
    refine ⟨c, inv.hchain, ?_, disj_preserved h rfl inv.hdisj,
      inv.hfreed, ?_⟩
    · intro j ts hj
      rcases set_lookup_cases (lookup_lt h) hj with ⟨rfl, rfl⟩ | ⟨hne, hj'⟩
      · show Unpub s.mem c s.freed p
        exact inv.hthread i _ h
      · exact inv.hthread j ts hj'
    · show s.pushed = s.popped + ↑(chainVals s.mem c) +
        inflightOf s.mem (s.threads.set i (.pushStore p s.head))
      rw [inflightOf_set_same s.mem h (.pushStore p s.head) rfl]
      exact inv.hacc
  | pushStoreStep i p h0 nd h hget =>
    have hU : Unpub s.mem c s.freed p := inv.hthread i _ h
    refine ⟨c, chain_set inv.hchain hU.2.1 _, ?_,
      disj_preserved h rfl inv.hdisj, ?_, ?_⟩
    · intro j ts hj
      rcases set_lookup_cases (lookup_lt h) hj with ⟨rfl, rfl⟩ | ⟨hne, hj'⟩
      · refine ⟨⟨by rw [List.length_set]; exact hU.1, hU.2.1, hU.2.2⟩, ?_⟩
        exact ⟨⟨nd.value, h0⟩, by rw [List.getElem?_set_self hU.1], rfl⟩
      · refine TInv_set_other (inv.hthread j ts hj') _ hU.2.1 hU.2.2 ?_
        intro q hq
        exact inv.hdisj j i ts _ q p (Ne.symm hne) hj' h hq rfl
    · intro q hq
      obtain ⟨h1, h2⟩ := inv.hfreed q hq
      exact ⟨by rw [List.length_set]; exact h1, h2⟩
    · show s.pushed = s.popped +
        ↑(chainVals (s.mem.set p ⟨nd.value, h0⟩) c) +
        inflightOf (s.mem.set p ⟨nd.value, h0⟩)
          (s.threads.set i (.pushCas p h0))
      rw [chainVals_set_value hget,
        inflightOf_set_same (s.mem.set p ⟨nd.value, h0⟩) h (.pushCas p h0) rfl,
        inflight_stable inv (fun q _ => valM_set_value hget h0 q)]
      exact inv.hacc
  | pushCasOk i p hv h hh =>
    obtain ⟨hU, hN⟩ := inv.hthread i _ h
    obtain ⟨nd, hget, hnx⟩ := hN
    refine ⟨p :: c, ?_, ?_, disj_to_none h rfl inv.hdisj, ?_, ?_⟩
    · refine Chain.cons hget ?_
      rw [hnx, ← hh]
      exact inv.hchain
    · intro j ts hj
      rcases set_lookup_cases (lookup_lt h) hj with ⟨rfl, rfl⟩ | ⟨hne, hj'⟩
      · trivial
      · refine TInv_chain_grow (inv.hthread j ts hj') ?_
        intro q hq
        exact inv.hdisj j i ts _ q p (Ne.symm hne) hj' h hq rfl
    · intro q hq
      obtain ⟨h1, h2⟩ := inv.hfreed q hq
      refine ⟨h1, ?_⟩
      intro hm
      rcases List.mem_cons.mp hm with rfl | hm
      · exact hU.2.2 hq
      · exact h2 hm
    · show s.pushed = s.popped + ↑(chainVals s.mem (p :: c)) +
        inflightOf s.mem (s.threads.set i .idle)
      rw [chainVals_cons_of_get hget]
      have hset := inflightOf_set s.mem h TState.idle
      rw [show tsVal s.mem TState.idle = 0 from rfl, add_zero,
        show tsVal s.mem (TState.pushCas p hv) = valM s.mem p from rfl,
        valM_eq_singleton hget] at hset
      rw [inv.hacc, ← hset, ← Multiset.cons_coe, ← Multiset.singleton_add]
      abel
  | pushCasFail i p hv h =>
    refine ⟨c, inv.hchain, ?_, disj_preserved h rfl inv.hdisj,
      inv.hfreed, ?_⟩
    · intro j ts hj
      rcases set_lookup_cases (lookup_lt h) hj with ⟨rfl, rfl⟩ | ⟨hne, hj'⟩
      · exact (inv.hthread i _ h).1
      · exact inv.hthread j ts hj'
    · show s.pushed = s.popped + ↑(chainVals s.mem c) +
        inflightOf s.mem (s.threads.set i (.pushStore p s.head))
      rw [inflightOf_set_same s.mem h (.pushStore p s.head) rfl]
      exact inv.hacc
  | popBegin i h =>
    refine ⟨c, inv.hchain, ?_, disj_preserved h rfl inv.hdisj,
      inv.hfreed, ?_⟩
    · intro j ts hj
      rcases set_lookup_cases (lookup_lt h) hj with ⟨rfl, rfl⟩ | ⟨hne, hj'⟩
      · trivial
      · exact inv.hthread j ts hj'
    · show s.pushed = s.popped + ↑(chainVals s.mem c) +
        inflightOf s.mem (s.threads.set i .popLoad)
      rw [inflightOf_set_same s.mem h .popLoad rfl]
      exact inv.hacc
  | popLoadStep i h =>
    refine ⟨c, inv.hchain, ?_, disj_preserved h rfl inv.hdisj,
      inv.hfreed, ?_⟩
    · intro j ts hj
      rcases set_lookup_cases (lookup_lt h) hj with ⟨rfl, rfl⟩ | ⟨hne, hj'⟩
      · cases hh : s.head with
        | none => trivial
        | some p =>
          have hc := inv.hchain
          rw [hh] at hc
          cases hc with
          | cons hget htail => exact Or.inl (List.mem_cons_self _ _)
      · exact inv.hthread j ts hj'
    · show s.pushed = s.popped + ↑(chainVals s.mem c) +
        inflightOf s.mem (s.threads.set i (.popCheck s.head))
      rw [inflightOf_set_same s.mem h (.popCheck s.head) rfl]
      exact inv.hacc
  | popEmpty i h =>
    refine ⟨c, inv.hchain, ?_, disj_preserved h rfl inv.hdisj,
      inv.hfreed, ?_⟩
    · intro j ts hj
      rcases set_lookup_cases (lookup_lt h) hj with ⟨rfl, rfl⟩ | ⟨hne, hj'⟩
      · trivial
      · exact inv.hthread j ts hj'
    · show s.pushed = s.popped + ↑(chainVals s.mem c) +
        inflightOf s.mem (s.threads.set i .idle)
      rw [inflightOf_set_same s.mem h .idle rfl]
      exact inv.hacc
  | popDeref i p h =>
    refine ⟨c, inv.hchain, ?_, disj_preserved h rfl inv.hdisj,
      inv.hfreed, ?_⟩
    · intro j ts hj
      rcases set_lookup_cases (lookup_lt h) hj with ⟨rfl, rfl⟩ | ⟨hne, hj'⟩
      · show p ∈ c ∨ p ∈ s.freed
        exact inv.hthread i _ h
      · exact inv.hthread j ts hj'
    · show s.pushed = s.popped + ↑(chainVals s.mem c) +
        inflightOf s.mem (s.threads.set i (.popRead p))
      rw [inflightOf_set_same s.mem h (.popRead p) rfl]
      exact inv.hacc
  | popReadStep i p nd h hget =>
    refine ⟨c, inv.hchain, ?_, disj_preserved h rfl inv.hdisj,
      inv.hfreed, ?_⟩
    · intro j ts hj
      rcases set_lookup_cases (lookup_lt h) hj with ⟨rfl, rfl⟩ | ⟨hne, hj'⟩
      · exact ⟨inv.hthread i _ h, ⟨nd, hget, rfl⟩⟩
      · exact inv.hthread j ts hj'
    · show s.pushed = s.popped + ↑(chainVals s.mem c) +
        inflightOf s.mem (s.threads.set i (.popCas p nd.next))
      rw [inflightOf_set_same s.mem h (.popCas p nd.next) rfl]
      exact inv.hacc
  | popCasOk i p n nd h hh hget =>
    obtain ⟨hPub, hN⟩ := inv.hthread i _ h
    have hplt : p < s.mem.length := pub_lt inv hPub
    have hc := inv.hchain
    rw [hh] at hc
    cases hc with
    | cons hget0 htail =>
      rename_i nd0 rest
      have hnd : nd0 = nd := Option.some_inj.mp (hget0.symm.trans hget)
      subst hnd
      have hnext : nd0.next = n := NextIs_det hN hget
      refine ⟨rest, ?_, ?_, disj_to_none h rfl inv.hdisj, ?_, ?_⟩
      · rw [← hnext]
        exact htail
      · intro j ts hj
        rcases set_lookup_cases (lookup_lt h) hj with ⟨rfl, rfl⟩ | ⟨hne, hj'⟩
        · trivial
        · exact TInv_pop_shift (inv.hthread j ts hj')
      · intro q hq
        rcases List.mem_cons.mp hq with rfl | hq
        · refine ⟨hplt, ?_⟩
          have hnd := chain_nodup inv.hchain
          exact (List.nodup_cons.mp hnd).1
        · obtain ⟨h1, h2⟩ := inv.hfreed q hq
          exact ⟨h1, fun hm => h2 (List.mem_cons_of_mem _ hm)⟩
      · show s.pushed = (nd0.value ::ₘ s.popped) + ↑(chainVals s.mem rest) +
          inflightOf s.mem (s.threads.set i .idle)
        rw [inflightOf_set_same s.mem h .idle rfl, inv.hacc,
          chainVals_cons_of_get hget0, ← Multiset.cons_coe,
          ← Multiset.singleton_add, ← Multiset.singleton_add]
        abel
  | popCasFail i p n h =>
    refine ⟨c, inv.hchain, ?_, disj_preserved h rfl inv.hdisj,
      inv.hfreed, ?_⟩
    · intro j ts hj
      rcases set_lookup_cases (lookup_lt h) hj with ⟨rfl, rfl⟩ | ⟨hne, hj'⟩
      · cases hh : s.head with
        | none => trivial
        | some q =>
          have hc := inv.hchain
          rw [hh] at hc
          cases hc with
          | cons hget htail => exact Or.inl (List.mem_cons_self _ _)
      · exact inv.hthread j ts hj'
    · show s.pushed = s.popped + ↑(chainVals s.mem c) +
        inflightOf s.mem (s.threads.set i (.popCheck s.head))
      rw [inflightOf_set_same s.mem h (.popCheck s.head) rfl]
      exact inv.hacc

/-- The initial system satisfies the invariant with the empty chain. -/
theorem inv_init (n : Nat) : SysInv (init T n) [] := by
  refine ⟨Chain.nil, ?_, ?_, ?_, ?_⟩
  · intro i ts h
    have hts : ts = TState.idle :=
      List.eq_of_mem_replicate (List.getElem?_mem h)
    subst hts
    trivial
  · intro i j tsi tsj p q hij hi hj hpi hqj
    have hts : tsi = TState.idle :=
      List.eq_of_mem_replicate (List.getElem?_mem hi)
    subst hts
    exact absurd hpi (by simp [unpub])
  · intro p hp
    simp [init] at hp
  · show (0 : Multiset T) = 0 + ↑(chainVals ([] : List (Node T)) []) +
      inflightOf [] (List.replicate n .idle)
    rw [inflightOf_idle (fun ts hts => List.eq_of_mem_replicate hts)]
    simp [chainVals]

/-- Every reachable system state satisfies the invariant. -/
theorem steps_inv {n : Nat} {s : Sys T} (h : Steps (init T n) s) :
    ∃ c, SysInv s c := by
  induction h with
  | refl => exact ⟨[], inv_init n⟩
  | tail _ hstep ih =>
    obtain ⟨c, hc⟩ := ih
    exact inv_step hc hstep

/-- C7: when a push's weak owned CAS fails (for any reason, including
spuriously), the retry loop receives back the very same owned node (`p`
unchanged) together with the refreshed current `head`; the arena is
completely untouched — no allocation, no deallocation, and every payload
(in particular the push's own `v` at `p`) is bit-for-bit unchanged. -/
theorem C7_cas_fail_hands_back_node {T : Type u} {s s' : Sys T}
    {i p p' : Nat} {h h' : Option Nat} (hstep : Step s s')
    (hi : s.threads[i]? = some (.pushCas p h))
    (hi' : s'.threads[i]? = some (.pushStore p' h')) :
    p' = p ∧ s'.mem = s.mem ∧ s'.head = s.head ∧ h' = s.head := by
  cases hstep with
  | pushBegin j v hj =>
    rcases set_lookup_cases (lookup_lt hj) hi' with ⟨rfl, he⟩ | ⟨hne, hj'⟩
    · simp at he
    · have := hi.symm.trans hj'
      simp at this
  | pushLoadStep j q hj =>
    rcases set_lookup_cases (lookup_lt hj) hi' with ⟨rfl, he⟩ | ⟨hne, hj'⟩
    · have := hi.symm.trans hj
      simp at this
    · have := hi.symm.trans hj'
      simp at this
  | pushStoreStep j q h0 nd hj hget =>
    rcases set_lookup_cases (lookup_lt hj) hi' with ⟨rfl, he⟩ | ⟨hne, hj'⟩
    · simp at he
    · have := hi.symm.trans hj'
      simp at this
  | pushCasOk j q hv hj hh =>
    rcases set_lookup_cases (lookup_lt hj) hi' with ⟨rfl, he⟩ | ⟨hne, hj'⟩
    · simp at he
    · have := hi.symm.trans hj'
      simp at this
  | pushCasFail j q hv hj =>
    rcases set_lookup_cases (lookup_lt hj) hi' with ⟨rfl, he⟩ | ⟨hne, hj'⟩
    · have hji := hi.symm.trans hj
      simp only [Option.some_inj] at hji
      cases hji
      simp only [TState.pushStore.injEq] at he
      exact ⟨he.1, rfl, rfl, he.2⟩
    · have := hi.symm.trans hj'
      simp at this
  | popBegin j hj =>
    rcases set_lookup_cases (lookup_lt hj) hi' with ⟨rfl, he⟩ | ⟨hne, hj'⟩
    · simp at he
    · have := hi.symm.trans hj'
      simp at this
  | popLoadStep j hj =>
    rcases set_lookup_cases (lookup_lt hj) hi' with ⟨rfl, he⟩ | ⟨hne, hj'⟩
    · simp at he
    · have := hi.symm.trans hj'
      simp at this
  | popEmpty j hj =>
    rcases set_lookup_cases (lookup_lt hj) hi' with ⟨rfl, he⟩ | ⟨hne, hj'⟩
    · simp at he
    · have := hi.symm.trans hj'
      simp at this
  | popDeref j q hj =>
    rcases set_lookup_cases (lookup_lt hj) hi' with ⟨rfl, he⟩ | ⟨hne, hj'⟩
    · simp at he
    · have := hi.symm.trans hj'
      simp at this
  | popReadStep j q nd hj hget =>
    rcases set_lookup_cases (lookup_lt hj) hi' with ⟨rfl, he⟩ | ⟨hne, hj'⟩
    · simp at he
    · have := hi.symm.trans hj'
      simp at this
  | popCasOk j q n nd hj hh hget =>
    rcases set_lookup_cases (lookup_lt hj) hi' with ⟨rfl, he⟩ | ⟨hne, hj'⟩
    · simp at he
    · have := hi.symm.trans hj'
      simp at this
  | popCasFail j q n hj =>
    rcases set_lookup_cases (lookup_lt hj) hi' with ⟨rfl, he⟩ | ⟨hne, hj'⟩
    · simp at he
    · have := hi.symm.trans hj'
      simp at this

/-- Witness for C7: a one-thread system takes a (spuriously) failing
`pushCas` step; the node address, the arena and `head` are unchanged and
the thread resumes at `pushStore` with the refreshed head. -/
theorem C7_cas_fail_hands_back_node_witness :
    Step (⟨[⟨42, none⟩], none, [.pushCas 0 (some 5)], {42}, 0, []⟩ : Sys Nat)
        ⟨[⟨42, none⟩], none, [.pushStore 0 none], {42}, 0, []⟩ ∧
      ((⟨[⟨42, none⟩], none, [.pushCas 0 (some 5)], {42}, 0, []⟩ :
          Sys Nat).threads[0]? = some (.pushCas 0 (some 5))) ∧
      ((⟨[⟨42, none⟩], none, [.pushStore 0 none], {42}, 0, []⟩ :
          Sys Nat).threads[0]? = some (.pushStore 0 none)) ∧
      (0 = 0 ∧ ([⟨42, none⟩] : List (Node Nat)) = [⟨42, none⟩] ∧
        (none : Option Nat) = none ∧ (none : Option Nat) = none) := by
  have hstep :
      Step (⟨[⟨42, none⟩], none, [.pushCas 0 (some 5)], {42}, 0, []⟩ :
          Sys Nat)
        ⟨[⟨42, none⟩], none, [.pushStore 0 none], {42}, 0, []⟩ :=
    Step.pushCasFail _ 0 0 (some 5) rfl
  exact ⟨hstep, rfl, rfl,
    @C7_cas_fail_hands_back_node Nat _ _ 0 0 0 (some 5) none hstep rfl rfl⟩

/-- C8: under any interleaving of any number of threads mixing pushes and
pops (with weak CAS allowed to fail spuriously), once all threads are idle
again, the multiset of values ever returned by `pop`, together with the
multiset of values remaining on the stack at teardown (as the `Drop`
traversal reads them from `head`), is exactly the multiset of all values
ever pushed: nothing is lost, duplicated, or fabricated. -/
theorem C8_no_loss_no_duplication {T : Type u} {n : Nat} {s : Sys T}
    (hr : Steps (init T n) s)
    (hq : ∀ ts ∈ s.threads, ts = TState.idle) :
    s.popped + ↑(listFrom s.mem s.mem.length s.head) = s.pushed := by
  obtain ⟨c, inv⟩ := steps_inv hr
  rw [listFrom_chain inv.hchain s.mem.length (chain_length_le inv.hchain),
    inv.hacc, inflightOf_idle hq, add_zero]

/-- Witness for C8: one thread pushes `5` (begin, load, store, CAS) and
becomes idle; the pop-side multiset is empty and the teardown traversal
reads back exactly `{5}`. -/
theorem C8_no_loss_no_duplication_witness :
    Steps (init Nat 1)
        (⟨[⟨5, none⟩], some 0, [.idle], {5}, 0, []⟩ : Sys Nat) ∧
      (∀ ts ∈ (⟨[⟨5, none⟩], some 0, [.idle], {5}, 0, []⟩ :
          Sys Nat).threads, ts = TState.idle) ∧
      ((0 : Multiset Nat) +
          ↑(listFrom ([⟨5, none⟩] : List (Node Nat)) 1 (some 0)) =
        ({5} : Multiset Nat)) := by
  have t1 : Step (init Nat 1)
      (⟨[⟨5, none⟩], none, [.pushLoad 0], {5}, 0, []⟩ : Sys Nat) :=
    Step.pushBegin _ 0 5 rfl
  have t2 : Step (⟨[⟨5, none⟩], none, [.pushLoad 0], {5}, 0, []⟩ : Sys Nat)
      (⟨[⟨5, none⟩], none, [.pushStore 0 none], {5}, 0, []⟩ : Sys Nat) :=
    Step.pushLoadStep _ 0 0 rfl
  have t3 : Step
      (⟨[⟨5, none⟩], none, [.pushStore 0 none], {5}, 0, []⟩ : Sys Nat)
      (⟨[⟨5, none⟩], none, [.pushCas 0 none], {5}, 0, []⟩ : Sys Nat) :=
    Step.pushStoreStep _ 0 0 none ⟨5, none⟩ rfl rfl
  have t4 : Step (⟨[⟨5, none⟩], none, [.pushCas 0 none], {5}, 0, []⟩ : Sys Nat)
      (⟨[⟨5, none⟩], some 0, [.idle], {5}, 0, []⟩ : Sys Nat) :=
    Step.pushCasOk _ 0 0 none rfl rfl
  have htrace : Steps (init Nat 1)
      (⟨[⟨5, none⟩], some 0, [.idle], {5}, 0, []⟩ : Sys Nat) :=
    Steps.tail (Steps.tail (Steps.tail (Steps.tail (Steps.refl _) t1) t2) t3)
      t4
  have hq : ∀ ts ∈ (⟨[⟨5, none⟩], some 0, [.idle], {5}, 0, []⟩ :
      Sys Nat).threads, ts = TState.idle := by
    intro ts hts
    simpa using hts
  exact ⟨htrace, hq, C8_no_loss_no_duplication htrace hq⟩

end Coco
